import Mathlib

/-!
Shallow embedding of the core prediction/learning engine of the
Task-Priority-Predictor repository (src/simple_task_ai.py, class
SimpleTaskPriorityAI), together with theorems settling the frozen claims
about its specification.

Python dictionaries are insertion-ordered, so both the pattern store
(`learned_patterns`, a defaultdict of defaultdicts of int) and the inner
per-key priority counters are modelled as insertion-ordered association
lists.  Python's `max(d, key=d.get)` keeps the first element attaining the
maximum while scanning keys left to right with a strict comparison; it is
modelled by a left fold with a strict comparison (`argmaxFirst`).
Float division used for confidences is modelled over ℚ.
-/

namespace TaskAI

/-- One task record, mirroring the dict shape built in
`generate_sample_data` / `api_server.predict_priority`:
task_id, task_type, time_of_day, urgency, priority, completion_order,
created_date. -/
structure TaskRecord where
  task_id : Int
  task_type : String
  time_of_day : String
  urgency : String
  priority : String
  completion_order : Int
  created_date : String
deriving DecidableEq, Repr

/-- Inner counter dict: priority label -> occurrence count, in insertion
order (Python `defaultdict(int)`). -/
abbrev Counts := List (String × Nat)

/-- Outer pattern store: pattern key -> inner counter dict, in insertion
order (Python `defaultdict(lambda: defaultdict(int))`). -/
abbrev Patterns := List (String × Counts)

/-- Dict lookup on the inner counter: first entry with the given key
(Python `d[p]` / `d.get(p)` for a present key). -/
def Counts.get : Counts → String → Option Nat
  | [], _ => none
  | (q, n) :: rest, p => if q = p then some n else Counts.get rest p

/-- `d[p] += 1` on a `defaultdict(int)`: bump the first entry with key `p`
in place, or append `(p, 1)` at the end when `p` is absent. -/
def Counts.incr (c : Counts) (p : String) : Counts :=
  match c with
  | [] => [(p, 1)]
  | (q, n) :: rest => if q = p then (q, n + 1) :: rest else (q, n) :: Counts.incr rest p

/-- `sum(d.values())`. -/
def Counts.total (c : Counts) : Nat :=
  (c.map Prod.snd).sum

/-- Dict lookup on the pattern store. -/
def Patterns.find : Patterns → String → Option Counts
  | [], _ => none
  | (k', c) :: rest, k => if k' = k then some c else Patterns.find rest k

/-- `self.learned_patterns[key][priority] += 1`: bump the counter of
`priority` inside the entry for `key`, appending a fresh entry for `key`
at the end when `key` is absent (defaultdict semantics). -/
def Patterns.incr (ps : Patterns) (k p : String) : Patterns :=
  match ps with
  | [] => [(k, Counts.incr [] p)]
  | (k', c) :: rest =>
      if k' = k then (k', Counts.incr c p) :: rest
      else (k', c) :: Patterns.incr rest k p

/-- The pattern key `f"{task_type}_{time_of_day}_{urgency}"`. -/
def patternKey (task_type time_of_day urgency : String) : String :=
  task_type ++ "_" ++ time_of_day ++ "_" ++ urgency

/-- `learn_patterns`: for every task in the list, increment
`learned_patterns[key(task)][task.priority]`.  The prior store is NOT
cleared; the method folds the increments over whatever store it starts
from. -/
def learn_patterns (ps : Patterns) (tasks : List TaskRecord) : Patterns :=
  tasks.foldl
    (fun acc t =>
      Patterns.incr acc (patternKey t.task_type t.time_of_day t.urgency) t.priority)
    ps

/-- The fixed domain `self.task_types` from `__init__`. -/
def task_types : List String :=
  ["email", "coding", "meeting", "personal", "research", "review"]

/-- The fixed domain `self.time_periods` from `__init__`. -/
def time_periods : List String :=
  ["morning", "afternoon", "evening"]

/-- The fixed domain `self.urgency_levels` from `__init__`. -/
def urgency_levels : List String :=
  ["high", "medium", "low"]

/-- The fixed output domain `self.priority_levels` from `__init__`. -/
def priority_levels : List String :=
  ["HIGH", "MEDIUM", "LOW"]

/-- `_calculate_rule_based_priority`: the ordered if-chain of the source,
first match wins, with the final urgency-based default. -/
def calculate_rule_based_priority (task_type time_of_day urgency : String) : String :=
  if urgency = "high" ∧ time_of_day = "morning" then "HIGH"
  else if task_type = "email" ∧ time_of_day = "afternoon" then "MEDIUM"
  else if (task_type = "coding" ∨ task_type = "research") ∧ time_of_day = "morning" then "HIGH"
  else if task_type = "meeting" ∧ time_of_day = "afternoon" then "MEDIUM"
  else if time_of_day = "evening" then "LOW"
  else if urgency = "high" then "HIGH"
  else if urgency = "medium" then "MEDIUM"
  else "LOW"

/-- The result dict of `predict_priority`; the float confidence is
modelled as an exact rational. -/
structure Prediction where
  priority : String
  confidence : ℚ
deriving DecidableEq, Repr

/-- One comparison step of Python `max(iterable, key=f)`: keep the current
best, replacing it only on a strictly greater key value. -/
def pickMax (acc : Option (String × Nat)) (e : String × Nat) : Option (String × Nat) :=
  match acc with
  | none => some e
  | some b => if e.2 > b.2 then some e else some b

/-- Python `max(d, key=d.get)`: scan the dict keys left to right keeping
the current best under a strict comparison — so the first element
attaining the maximum wins. -/
def argmaxFirst (c : Counts) : Option (String × Nat) :=
  c.foldl pickMax none

/-- `predict_priority`: look up the key in the learned patterns; when
present with total count > 0, return the first maximal priority with
confidence count/total; otherwise fall back to the rule-based priority
with confidence 0.6.  The inner `none` branch is unreachable because a
positive total forces a nonempty counter. -/
def predict_priority (ps : Patterns) (task_type time_of_day urgency : String) :
    Prediction :=
  match Patterns.find ps (patternKey task_type time_of_day urgency) with
  | some pattern_counts =>
      if 0 < Counts.total pattern_counts then
        match argmaxFirst pattern_counts with
        | some b =>
            { priority := b.1,
              confidence :=
                (((Counts.get pattern_counts b.1).getD 0 : ℚ) /
                  (Counts.total pattern_counts : ℚ)) }
        | none =>
            { priority := calculate_rule_based_priority task_type time_of_day urgency,
              confidence := 3 / 5 }
      else
        { priority := calculate_rule_based_priority task_type time_of_day urgency,
          confidence := 3 / 5 }
  | none =>
      { priority := calculate_rule_based_priority task_type time_of_day urgency,
        confidence := 3 / 5 }

/-- `_get_reasoning`: collect the applicable clauses in the fixed source
order and join them with " + ", falling back to a single generic phrase
when none applies.  The method reads nothing from `self` beyond the three
arguments. -/
def get_reasoning (task_type time_of_day urgency : String) : String :=
  let r1 : List String := if urgency = "high" then ["High urgency task"] else []
  let r2 : List String :=
    if time_of_day = "morning" then ["Morning time slot (typically high productivity)"] else []
  let r3 : List String :=
    if task_type = "coding" ∨ task_type = "research" then ["Creative/technical task"] else []
  let r4 : List String := if task_type = "email" then ["Communication task"] else []
  let reasons := r1 ++ r2 ++ r3 ++ r4
  let reasons := if reasons = [] then ["Based on learned patterns"] else reasons
  String.intercalate " + " reasons

/-- The pattern key of a record, as used inside `learn_patterns`. -/
def keyOf (r : TaskRecord) : String :=
  patternKey r.task_type r.time_of_day r.urgency

/-- Observed count for a (key, priority) pair in the pattern store,
0 when absent. -/
def patCount (ps : Patterns) (k p : String) : Nat :=
  match Patterns.find ps k with
  | some c => (Counts.get c p).getD 0
  | none => 0

/-- Total observation count for a key in the pattern store, 0 when
absent. -/
def keyTotal (ps : Patterns) (k : String) : Nat :=
  match Patterns.find ps k with
  | some c => Counts.total c
  | none => 0

/-- Number of records of `h` carrying the given key and priority. -/
def tally : List TaskRecord → String → String → Nat
  | [], _, _ => 0
  | r :: rest, k, p =>
      (if keyOf r = k ∧ r.priority = p then 1 else 0) + tally rest k p

/-- Number of records of `h` carrying the given key. -/
def keyTally : List TaskRecord → String → Nat
  | [], _ => 0
  | r :: rest, k => (if keyOf r = k then 1 else 0) + keyTally rest k

theorem Counts.get_incr (c : Counts) (p q : String) :
    Counts.get (Counts.incr c p) q =
      if q = p then some ((Counts.get c p).getD 0 + 1) else Counts.get c q := by
  induction c with
  | nil =>
      by_cases h : q = p
      · subst h
        simp [Counts.incr, Counts.get]
      · simp [Counts.incr, Counts.get, h, Ne.symm h]
  | cons e rest ih =>
      obtain ⟨q', n⟩ := e
      by_cases h1 : q' = p
      · subst h1
        by_cases h2 : q' = q
        · subst h2
          simp [Counts.incr, Counts.get]
        · simp [Counts.incr, Counts.get, h2, Ne.symm h2]
      · by_cases h2 : q' = q
        · subst h2
          simp [Counts.incr, Counts.get, h1]
        · simp [Counts.incr, Counts.get, h1, h2, ih]

theorem Counts.total_incr (c : Counts) (p : String) :
    Counts.total (Counts.incr c p) = Counts.total c + 1 := by
  induction c with
  | nil => simp [Counts.incr, Counts.total]
  | cons e rest ih =>
      obtain ⟨q, n⟩ := e
      by_cases h : q = p <;> simp [Counts.incr, Counts.total, h] at ih ⊢ <;> omega

theorem Patterns.find_incr (ps : Patterns) (k p k' : String) :
    Patterns.find (Patterns.incr ps k p) k' =
      if k' = k then some (Counts.incr ((Patterns.find ps k).getD []) p)
      else Patterns.find ps k' := by
  induction ps with
  | nil =>
      by_cases h : k' = k
      · subst h
        simp [Patterns.incr, Patterns.find]
      · simp [Patterns.incr, Patterns.find, h, Ne.symm h]
  | cons e rest ih =>
      obtain ⟨k0, c⟩ := e
      by_cases h1 : k0 = k
      · subst h1
        by_cases h2 : k0 = k'
        · subst h2
          simp [Patterns.incr, Patterns.find]
        · simp [Patterns.incr, Patterns.find, h2, Ne.symm h2]
      · by_cases h2 : k0 = k'
        · subst h2
          simp [Patterns.incr, Patterns.find, h1]
        · simp [Patterns.incr, Patterns.find, h1, h2, ih]

theorem patCount_incr (ps : Patterns) (k p k' p' : String) :
    patCount (Patterns.incr ps k p) k' p' =
      patCount ps k' p' + (if k' = k ∧ p' = p then 1 else 0) := by
  unfold patCount
  rw [Patterns.find_incr]
  by_cases h1 : k' = k
  · subst h1
    rw [if_pos rfl]
    by_cases h2 : p' = p
    · subst h2
      cases hf : Patterns.find ps k' with
      | none => simp [hf, Counts.get_incr, Counts.get]
      | some c => simp [hf, Counts.get_incr]
    · cases hf : Patterns.find ps k' with
      | none => simp [hf, h2, Counts.get_incr, Counts.get, Counts.incr, Ne.symm h2]
      | some c => simp [hf, h2, Counts.get_incr]
  · simp [h1]

theorem keyTotal_incr (ps : Patterns) (k p k' : String) :
    keyTotal (Patterns.incr ps k p) k' =
      keyTotal ps k' + (if k' = k then 1 else 0) := by
  unfold keyTotal
  rw [Patterns.find_incr]
  by_cases h1 : k' = k
  · subst h1
    rw [if_pos rfl]
    cases hf : Patterns.find ps k' with
    | none => simp [hf, Counts.total_incr, Counts.total, Counts.incr]
    | some c => simp [hf, Counts.total_incr]
  · simp [h1]

theorem patCount_learn (h : List TaskRecord) (ps : Patterns) (k p : String) :
    patCount (learn_patterns ps h) k p = patCount ps k p + tally h k p := by
  induction h generalizing ps with
  | nil => simp [learn_patterns, tally]
  | cons t rest ih =>
      have step :
          learn_patterns ps (t :: rest) =
            learn_patterns (Patterns.incr ps (keyOf t) t.priority) rest := by
        simp [learn_patterns, keyOf]
      rw [step, ih, patCount_incr]
      show _ = patCount ps k p + tally (t :: rest) k p
      rw [tally]
      by_cases hc : keyOf t = k ∧ t.priority = p
      · rw [if_pos ⟨hc.1.symm, hc.2.symm⟩, if_pos hc]
        omega
      · rw [if_neg (fun hx => hc ⟨hx.1.symm, hx.2.symm⟩), if_neg hc]
        omega

theorem keyTotal_learn (h : List TaskRecord) (ps : Patterns) (k : String) :
    keyTotal (learn_patterns ps h) k = keyTotal ps k + keyTally h k := by
  induction h generalizing ps with
  | nil => simp [learn_patterns, keyTally]
  | cons t rest ih =>
      have step :
          learn_patterns ps (t :: rest) =
            learn_patterns (Patterns.incr ps (keyOf t) t.priority) rest := by
        simp [learn_patterns, keyOf]
      rw [step, ih, keyTotal_incr]
      show _ = keyTotal ps k + keyTally (t :: rest) k
      rw [keyTally]
      by_cases hc : keyOf t = k
      · rw [if_pos hc.symm, if_pos hc]
        omega
      · rw [if_neg (fun hx => hc hx.symm), if_neg hc]
        omega

theorem find_learn_of_not_key (h : List TaskRecord) (ps : Patterns) (k : String)
    (hk : ∀ r ∈ h, keyOf r ≠ k) :
    Patterns.find (learn_patterns ps h) k = Patterns.find ps k := by
  induction h generalizing ps with
  | nil => simp [learn_patterns]
  | cons t rest ih =>
      have step :
          learn_patterns ps (t :: rest) =
            learn_patterns (Patterns.incr ps (keyOf t) t.priority) rest := by
        simp [learn_patterns, keyOf]
      rw [step, ih _ (fun r hr => hk r (List.mem_cons_of_mem _ hr)),
        Patterns.find_incr]
      have : ¬ k = keyOf t := fun hh => hk t (List.mem_cons_self t rest) hh.symm
      simp [this]

/-- The maximum count appearing in a counter list (0 when empty). -/
def maxCount (c : Counts) : Nat :=
  (c.map Prod.snd).foldr max 0

theorem maxCount_cons (e : String × Nat) (c : Counts) :
    maxCount (e :: c) = max e.2 (maxCount c) := by
  simp [maxCount]

theorem argmaxFirst_aux (c : Counts) (b : String × Nat) :
    c.foldl pickMax (some b) =
      if maxCount c ≤ b.2 then some b
      else c.find? (fun e => e.2 == maxCount c) := by
  induction c generalizing b with
  | nil => simp [maxCount]
  | cons e rest ih =>
      rw [List.foldl_cons]
      by_cases h1 : b.2 < e.2
      · have hpick : pickMax (some b) e = some e := by
          simp [pickMax, h1]
        rw [hpick, ih]
        by_cases h2 : maxCount rest ≤ e.2
        · have hmax : maxCount (e :: rest) = e.2 := by
            rw [maxCount_cons]
            omega
          have hnotle : ¬ maxCount (e :: rest) ≤ b.2 := by omega
          have hbeq : (e.2 == maxCount (e :: rest)) = true := by
            simp [hmax]
          rw [if_pos h2, if_neg hnotle, @List.find?_cons_of_pos _ (fun x => x.2 == maxCount (e :: rest)) e rest hbeq]
        · have hmax : maxCount (e :: rest) = maxCount rest := by
            rw [maxCount_cons]
            omega
          have hnotle : ¬ maxCount (e :: rest) ≤ b.2 := by omega
          have hne : ¬ e.2 = maxCount (e :: rest) := by omega
          have hbne : ¬ (e.2 == maxCount (e :: rest)) = true := by
            simp [hne]
          rw [if_neg h2, if_neg hnotle, @List.find?_cons_of_neg _ (fun x => x.2 == maxCount (e :: rest)) e rest hbne, hmax]
      · have hpick : pickMax (some b) e = some b := by
          simp [pickMax]
          omega
        rw [hpick, ih]
        by_cases h2 : maxCount rest ≤ b.2
        · have hle : maxCount (e :: rest) ≤ b.2 := by
            rw [maxCount_cons]
            omega
          rw [if_pos h2, if_pos hle]
        · have hnotle : ¬ maxCount (e :: rest) ≤ b.2 := by
            rw [maxCount_cons]
            omega
          have hmax : maxCount (e :: rest) = maxCount rest := by
            rw [maxCount_cons]
            omega
          have hne : ¬ e.2 = maxCount (e :: rest) := by omega
          have hbne : ¬ (e.2 == maxCount (e :: rest)) = true := by
            simp [hne]
          rw [if_neg h2, if_neg hnotle, @List.find?_cons_of_neg _ (fun x => x.2 == maxCount (e :: rest)) e rest hbne, hmax]

/-- Python's `max(d, key=d.get)` returns the first entry (in insertion
order) whose count equals the maximum count. -/
theorem argmaxFirst_eq_find (c : Counts) :
    argmaxFirst c = c.find? (fun e => e.2 == maxCount c) := by
  cases c with
  | nil => simp [argmaxFirst]
  | cons e rest =>
      have hstep : argmaxFirst (e :: rest) = rest.foldl pickMax (some e) := by
        simp [argmaxFirst, pickMax]
      rw [hstep, argmaxFirst_aux]
      by_cases h2 : maxCount rest ≤ e.2
      · have hmax : maxCount (e :: rest) = e.2 := by
          rw [maxCount_cons]
          omega
        have hbeq : (e.2 == maxCount (e :: rest)) = true := by
          simp [hmax]
        rw [if_pos h2, @List.find?_cons_of_pos _ (fun x => x.2 == maxCount (e :: rest)) e rest hbeq]
      · have hmax : maxCount (e :: rest) = maxCount rest := by
          rw [maxCount_cons]
          omega
        have hne : ¬ e.2 = maxCount (e :: rest) := by omega
        have hbne : ¬ (e.2 == maxCount (e :: rest)) = true := by
          simp [hne]
        rw [if_neg h2, @List.find?_cons_of_neg _ (fun x => x.2 == maxCount (e :: rest)) e rest hbne, hmax]

theorem maxCount_attained (c : Counts) (hne : c ≠ []) :
    ∃ e ∈ c, e.2 = maxCount c := by
  induction c with
  | nil => exact absurd rfl hne
  | cons e rest ih =>
      by_cases h2 : maxCount rest ≤ e.2
      · refine ⟨e, List.mem_cons_self e rest, ?_⟩
        rw [maxCount_cons]
        omega
      · cases rest with
        | nil => simp [maxCount] at h2
        | cons f rest2 =>
            obtain ⟨e', he', hmax⟩ := ih (by simp)
            refine ⟨e', List.mem_cons_of_mem _ he', ?_⟩
            rw [maxCount_cons]
            omega

theorem total_cons (e : String × Nat) (c : Counts) :
    Counts.total (e :: c) = e.2 + Counts.total c := by
  simp [Counts.total]

theorem snd_le_total (c : Counts) (e : String × Nat) (he : e ∈ c) :
    e.2 ≤ Counts.total c := by
  induction c with
  | nil => simp at he
  | cons f rest ih =>
      rw [total_cons]
      rcases List.mem_cons.mp he with h | h
      · subst h
        omega
      · have := ih h
        omega

theorem maxCount_pos (c : Counts) (hpos : 0 < Counts.total c) :
    0 < maxCount c := by
  induction c with
  | nil => simp [Counts.total] at hpos
  | cons e rest ih =>
      rw [total_cons] at hpos
      rw [maxCount_cons]
      by_cases he : 0 < e.2
      · omega
      · have := ih (by omega)
        omega

theorem argmaxFirst_isSome (c : Counts) (hne : c ≠ []) :
    ∃ b, argmaxFirst c = some b := by
  obtain ⟨e, he, hmax⟩ := maxCount_attained c hne
  rw [argmaxFirst_eq_find]
  rcases hfind : c.find? (fun y => y.2 == maxCount c) with _ | b
  · have := List.find?_eq_none.mp hfind e he
    simp [hmax] at this
  · exact ⟨b, hfind⟩

/-- Key lists of pattern-store counters stay duplicate-free: the invariant
holding for every inner dict of a store built through `Patterns.incr`. -/
def WFPatterns (ps : Patterns) : Prop :=
  ∀ e ∈ ps, ((e.2).map Prod.fst).Nodup

theorem keys_incr (c : Counts) (p : String) :
    (Counts.incr c p).map Prod.fst =
      if p ∈ c.map Prod.fst then c.map Prod.fst
      else c.map Prod.fst ++ [p] := by
  induction c with
  | nil => simp [Counts.incr]
  | cons e rest ih =>
      obtain ⟨q, n⟩ := e
      by_cases h : q = p
      · subst h
        simp [Counts.incr]
      · simp [Counts.incr, h, Ne.symm h, ih]
        by_cases hm : p ∈ rest.map Prod.fst <;> simp [hm, Ne.symm h]

theorem nodup_keys_incr (c : Counts) (p : String)
    (hnd : (c.map Prod.fst).Nodup) :
    ((Counts.incr c p).map Prod.fst).Nodup := by
  rw [keys_incr]
  by_cases hm : p ∈ c.map Prod.fst
  · simp [hm, hnd]
  · simp [hm, hnd, List.nodup_append]

theorem wf_incr (ps : Patterns) (k p : String) (hwf : WFPatterns ps) :
    WFPatterns (Patterns.incr ps k p) := by
  induction ps with
  | nil =>
      intro e he
      simp [Patterns.incr] at he
      subst he
      simp [Counts.incr]
  | cons f rest ih =>
      obtain ⟨k0, c⟩ := f
      by_cases h : k0 = k
      · subst h
        intro e he
        simp only [Patterns.incr, if_pos rfl] at he
        rcases List.mem_cons.mp he with h1 | h1
        · subst h1
          exact nodup_keys_incr c p (hwf ⟨k0, c⟩ (List.mem_cons_self _ _))
        · exact hwf e (List.mem_cons_of_mem _ h1)
      · intro e he
        simp only [Patterns.incr, if_neg h] at he
        rcases List.mem_cons.mp he with h1 | h1
        · subst h1
          exact hwf ⟨k0, c⟩ (List.mem_cons_self _ _)
        · exact ih (fun x hx => hwf x (List.mem_cons_of_mem _ hx)) e h1

theorem wf_learn (h : List TaskRecord) (ps : Patterns) (hwf : WFPatterns ps) :
    WFPatterns (learn_patterns ps h) := by
  induction h generalizing ps with
  | nil => exact hwf
  | cons t rest ih =>
      have step :
          learn_patterns ps (t :: rest) =
            learn_patterns (Patterns.incr ps (keyOf t) t.priority) rest := by
        simp [learn_patterns, keyOf]
      rw [step]
      exact ih _ (wf_incr ps (keyOf t) t.priority hwf)

theorem wf_nil : WFPatterns [] := by
  intro e he
  simp at he

theorem nodup_of_find (ps : Patterns) (k : String) (c : Counts)
    (hwf : WFPatterns ps) (hf : Patterns.find ps k = some c) :
    (c.map Prod.fst).Nodup := by
  induction ps with
  | nil => simp [Patterns.find] at hf
  | cons e rest ih =>
      obtain ⟨k0, c0⟩ := e
      by_cases h : k0 = k
      · subst h
        simp [Patterns.find] at hf
        subst hf
        exact hwf ⟨k0, c0⟩ (List.mem_cons_self _ _)
      · simp [Patterns.find, h] at hf
        exact ih (fun x hx => hwf x (List.mem_cons_of_mem _ hx)) hf

theorem get_of_mem_nodup (c : Counts) (p : String) (n : Nat)
    (hnd : (c.map Prod.fst).Nodup) (hm : (p, n) ∈ c) :
    Counts.get c p = some n := by
  induction c with
  | nil => simp at hm
  | cons e rest ih =>
      obtain ⟨q, m⟩ := e
      rcases List.mem_cons.mp hm with h1 | h1
      · rw [Prod.ext_iff] at h1
        obtain ⟨hq, hn⟩ := h1
        simp at hq hn
        subst hq
        subst hn
        simp [Counts.get]
      · rw [List.map_cons] at hnd
        have hndc := List.nodup_cons.mp hnd
        have hq : ¬ q = p := by
          intro hqp
          subst hqp
          have hmem : q ∈ rest.map Prod.fst :=
            List.mem_map.mpr ⟨(q, n), h1, rfl⟩
          exact hndc.1 hmem
        have hnd2 : (rest.map Prod.fst).Nodup := hndc.2
        simp [Counts.get, hq]
        exact ih hnd2 h1

/-- Characterisation of `predict_priority` on a key present in the store
with positive total: it returns the first maximal entry, with confidence
equal to that entry count over the key total. -/
theorem predict_spec (ps : Patterns) (t tod u : String) (c : Counts)
    (hf : Patterns.find ps (patternKey t tod u) = some c)
    (hpos : 0 < Counts.total c)
    (hnd : (c.map Prod.fst).Nodup) :
    ∃ b, argmaxFirst c = some b ∧
      predict_priority ps t tod u =
        { priority := b.1, confidence := (b.2 : ℚ) / (Counts.total c : ℚ) } ∧
      b ∈ c ∧ b.2 = maxCount c := by
  have hne : c ≠ [] := by
    intro hc
    subst hc
    simp [Counts.total] at hpos
  obtain ⟨b, hb⟩ := argmaxFirst_isSome c hne
  have hmem : b ∈ c := by
    rw [argmaxFirst_eq_find] at hb
    exact List.mem_of_find?_eq_some hb
  have hbmax : b.2 = maxCount c := by
    rw [argmaxFirst_eq_find] at hb
    have := List.find?_some hb
    simpa using this
  refine ⟨b, hb, ?_, hmem, hbmax⟩
  have hget : Counts.get c b.1 = some b.2 :=
    get_of_mem_nodup c b.1 b.2 hnd (by simpa using hmem)
  unfold predict_priority
  rw [hf]
  simp only [if_pos hpos, hb, hget]
  rfl

theorem keyTally_pos (h : List TaskRecord) (k : String)
    (hobs : ∃ r ∈ h, keyOf r = k) : 0 < keyTally h k := by
  induction h with
  | nil => simp at hobs
  | cons t rest ih =>
      rw [keyTally]
      rcases hobs with ⟨r, hr, hkr⟩
      rcases List.mem_cons.mp hr with h1 | h1
      · subst h1
        rw [if_pos hkr]
        omega
      · have := ih ⟨r, h1, hkr⟩
        omega

/-- Record with key (email, morning, high) and priority MEDIUM, observed
first in the tie counterexample history. -/
def recM : TaskRecord :=
  ⟨1, "email", "morning", "high", "MEDIUM", 1, "2024-01-01T00:00:00"⟩

/-- Record with key (email, morning, high) and priority HIGH, observed
second in the tie counterexample history. -/
def recH : TaskRecord :=
  ⟨2, "email", "morning", "high", "HIGH", 2, "2024-01-02T00:00:00"⟩

/-- The concrete scenario history of claim C5: three records with key
(email, morning, high) and priorities HIGH, HIGH, MEDIUM. -/
def historyC5 : List TaskRecord :=
  [⟨1, "email", "morning", "high", "HIGH", 1, "2024-01-01T00:00:00"⟩,
   ⟨2, "email", "morning", "high", "HIGH", 2, "2024-01-02T00:00:00"⟩,
   ⟨3, "email", "morning", "high", "MEDIUM", 3, "2024-01-03T00:00:00"⟩]

/-- Claim C1 is false as stated: `learn_patterns` does not discard prior
pattern state, so running it twice on the same one-record history yields a
different store (doubled counts) than running it once. -/
theorem C1_counterexample :
    learn_patterns (learn_patterns [] [recM]) [recM] ≠ learn_patterns [] [recM] := by
  decide

/-- Claim C1 (amended): `learn_patterns` accumulates instead of
discarding: the count of every (key, priority) pair after a call equals
its prior value plus the fresh tally of the argument history; hence
calling it twice in a row on a fresh engine yields exactly twice the
fresh tally of the history, not the tally itself. -/
theorem C1_learn_accumulates :
    (∀ (ps : Patterns) (h : List TaskRecord) (k p : String),
        patCount (learn_patterns ps h) k p = patCount ps k p + tally h k p) ∧
    (∀ (h : List TaskRecord) (k p : String),
        patCount (learn_patterns (learn_patterns [] h) h) k p =
          2 * patCount (learn_patterns [] h) k p) := by
  constructor
  · intro ps h k p
    exact patCount_learn h ps k p
  · intro h k p
    have h1 := patCount_learn h [] k p
    have h2 := patCount_learn h (learn_patterns [] h) k p
    have h0 : patCount [] k p = 0 := rfl
    omega

/-- Claim C2 is false as stated: in the history [MEDIUM-record,
HIGH-record] sharing key (email, morning, high), both priorities are tied
at count 1, yet `predict_priority` returns MEDIUM (the first priority
observed), not HIGH (the first in the declared enumeration order). -/
theorem C2_counterexample :
    Patterns.find (learn_patterns [] [recM, recH])
        (patternKey "email" "morning" "high") =
      some [("MEDIUM", 1), ("HIGH", 1)] ∧
    (predict_priority (learn_patterns [] [recM, recH])
        "email" "morning" "high").priority ≠ "HIGH" := by
  constructor
  · decide
  · decide

/-- Claim C2 (amended): ties at the maximum count are broken by the order
in which priorities were first observed for the key (dict insertion
order), not by the declared priority enumeration: on a key present with
positive total, `predict_priority` returns exactly the first entry of the
key inner dict whose count equals the maximum; being a pure function of
the state, repeated calls on the same state return the same priority. -/
theorem C2_tie_break_first_observed (ps : Patterns) (t tod u : String) (c : Counts)
    (hf : Patterns.find ps (patternKey t tod u) = some c)
    (hpos : 0 < Counts.total c)
    (hnd : (c.map Prod.fst).Nodup) :
    c.find? (fun e => e.2 == maxCount c) =
      some ((predict_priority ps t tod u).priority, maxCount c) := by
  obtain ⟨b, hb, hpred, hmem, hbmax⟩ := predict_spec ps t tod u c hf hpos hnd
  rw [← argmaxFirst_eq_find, hb, hpred]
  obtain ⟨b1, b2⟩ := b
  simp at hbmax ⊢
  exact hbmax

theorem C2_tie_break_first_observed_witness :
    (([("MEDIUM", 1), ("HIGH", 1)] : Counts).find?
        (fun e => e.2 == maxCount [("MEDIUM", 1), ("HIGH", 1)]) =
      some ((predict_priority (learn_patterns [] [recM, recH])
          "email" "morning" "high").priority,
        maxCount [("MEDIUM", 1), ("HIGH", 1)])) :=
  C2_tie_break_first_observed (learn_patterns [] [recM, recH])
    "email" "morning" "high" [("MEDIUM", 1), ("HIGH", 1)]
    (by decide) (by decide) (by decide)

/-- Claim C3 is false as stated: on the out-of-domain task type
"notatype" (with an unobserved key), `predict_priority` signals nothing
and silently returns the rule-based fallback priority HIGH with
confidence 0.6. -/
theorem C3_counterexample :
    "notatype" ∉ task_types ∧
    predict_priority [] "notatype" "morning" "high" =
      { priority := "HIGH", confidence := 3 / 5 } := by
  constructor
  · decide
  · rfl

/-- Claim C3 (amended): `predict_priority` performs no domain validation:
for inputs with a component outside its fixed enumerated domain whose key
is not in the store, it silently returns the rule-based classifier output
with confidence 0.6 and never signals an UnknownCategory failure. -/
theorem C3_no_unknown_category_failure (ps : Patterns) (t tod u : String)
    (hdom : t ∉ task_types ∨ tod ∉ time_periods ∨ u ∉ urgency_levels)
    (hf : Patterns.find ps (patternKey t tod u) = none) :
    predict_priority ps t tod u =
      { priority := calculate_rule_based_priority t tod u, confidence := 3 / 5 } := by
  unfold predict_priority
  rw [hf]

theorem C3_no_unknown_category_failure_witness :
    predict_priority [] "notatype" "morning" "high" =
      { priority := calculate_rule_based_priority "notatype" "morning" "high",
        confidence := 3 / 5 } :=
  C3_no_unknown_category_failure [] "notatype" "morning" "high"
    (Or.inl (by decide)) rfl

/-- Claim C4: for every valid attribute combination whose key was never
observed in the history, `predict_priority` on the store learned from
that history returns exactly the rule-based classifier output with
confidence exactly 0.6. -/
theorem C4_unseen_key_rule_fallback (h : List TaskRecord) (t tod u : String)
    (ht : t ∈ task_types) (htod : tod ∈ time_periods) (hu : u ∈ urgency_levels)
    (hun : ∀ r ∈ h, keyOf r ≠ patternKey t tod u) :
    predict_priority (learn_patterns [] h) t tod u =
      { priority := calculate_rule_based_priority t tod u, confidence := 3 / 5 } := by
  have hf : Patterns.find (learn_patterns [] h) (patternKey t tod u) = none := by
    rw [find_learn_of_not_key h [] _ hun]
    rfl
  unfold predict_priority
  rw [hf]

theorem C4_unseen_key_rule_fallback_witness :
    predict_priority (learn_patterns [] [recM]) "coding" "morning" "low" =
      { priority := calculate_rule_based_priority "coding" "morning" "low",
        confidence := 3 / 5 } :=
  C4_unseen_key_rule_fallback [recM] "coding" "morning" "low"
    (by decide) (by decide) (by decide) (by decide)

/-- Claim C5: on a store learned from a history in which the queried key
was observed, the confidence equals the count of the returned priority
for that key divided by the total count for that key and lies in (0, 1];
on the concrete scenario history (email, morning, high) with priorities
[HIGH, HIGH, MEDIUM], the prediction is HIGH with confidence 2/3. -/
theorem C5_learned_confidence :
    (∀ (h : List TaskRecord) (t tod u : String),
      (∃ r ∈ h, keyOf r = patternKey t tod u) →
      (predict_priority (learn_patterns [] h) t tod u).confidence =
          (patCount (learn_patterns [] h) (patternKey t tod u)
              (predict_priority (learn_patterns [] h) t tod u).priority : ℚ) /
            (keyTotal (learn_patterns [] h) (patternKey t tod u) : ℚ) ∧
      0 < (predict_priority (learn_patterns [] h) t tod u).confidence ∧
      (predict_priority (learn_patterns [] h) t tod u).confidence ≤ 1) ∧
    predict_priority (learn_patterns [] historyC5) "email" "morning" "high" =
      { priority := "HIGH", confidence := 2 / 3 } := by
  constructor
  · intro h t tod u hobs
    have htally : 0 < keyTally h (patternKey t tod u) :=
      keyTally_pos h (patternKey t tod u) hobs
    have hKT : keyTotal (learn_patterns [] h) (patternKey t tod u) =
        keyTally h (patternKey t tod u) := by
      have := keyTotal_learn h [] (patternKey t tod u)
      have h0 : keyTotal [] (patternKey t tod u) = 0 := rfl
      omega
    obtain ⟨c, hf⟩ : ∃ c,
        Patterns.find (learn_patterns [] h) (patternKey t tod u) = some c := by
      cases hfind : Patterns.find (learn_patterns [] h) (patternKey t tod u) with
      | none =>
          exfalso
          have hz : keyTotal (learn_patterns [] h) (patternKey t tod u) = 0 := by
            simp [keyTotal, hfind]
          omega
      | some c => exact ⟨c, rfl⟩
    have htc : Counts.total c = keyTally h (patternKey t tod u) := by
      have : keyTotal (learn_patterns [] h) (patternKey t tod u) =
          Counts.total c := by
        simp [keyTotal, hf]
      omega
    have hpos : 0 < Counts.total c := by omega
    have hnd := nodup_of_find _ _ _ (wf_learn h [] wf_nil) hf
    obtain ⟨b, hb, hpred, hmem, hbmax⟩ := predict_spec _ t tod u c hf hpos hnd
    have hpat : patCount (learn_patterns [] h) (patternKey t tod u) b.1 = b.2 := by
      simp [patCount, hf,
        get_of_mem_nodup c b.1 b.2 hnd (by simpa using hmem)]
    have hKTc : keyTotal (learn_patterns [] h) (patternKey t tod u) =
        Counts.total c := by
      simp [keyTotal, hf]
    rw [hpred]
    refine ⟨?_, ?_, ?_⟩
    · simp only
      rw [hpat, hKTc]
    · simp only
      have hb2 : 0 < b.2 := by
        rw [hbmax]
        exact maxCount_pos c hpos
      apply div_pos
      · exact_mod_cast hb2
      · exact_mod_cast hpos
    · simp only
      rw [div_le_one (by exact_mod_cast hpos)]
      exact_mod_cast snd_le_total c b hmem
  · have hred : predict_priority (learn_patterns [] historyC5) "email" "morning" "high" =
        { priority := "HIGH", confidence := ((2 : Nat) : ℚ) / ((3 : Nat) : ℚ) } := rfl
    rw [hred]
    simp only [Prediction.mk.injEq]
    norm_num

theorem C5_learned_confidence_witness :
    0 < (predict_priority (learn_patterns [] historyC5)
        "email" "morning" "high").confidence :=
  (C5_learned_confidence.1 historyC5 "email" "morning" "high" (by decide)).2.1

/-- A single rule of an ordered decision list as the specification words
it: an applicability condition over the three attributes and an outcome
priority (the final default rule maps urgency directly, so the outcome
may read the attributes). -/
structure DecisionRule where
  applies : String → String → String → Bool
  outcome : String → String → String → String

/-- Specification-side rendering of the six rules of the rule-based
classifier, in their declared order. -/
def specRuleList : List DecisionRule :=
  [⟨fun _ tod u => decide (u = "high" ∧ tod = "morning"), fun _ _ _ => "HIGH"⟩,
   ⟨fun t tod _ => decide (t = "email" ∧ tod = "afternoon"), fun _ _ _ => "MEDIUM"⟩,
   ⟨fun t tod _ => decide ((t = "coding" ∨ t = "research") ∧ tod = "morning"),
    fun _ _ _ => "HIGH"⟩,
   ⟨fun t tod _ => decide (t = "meeting" ∧ tod = "afternoon"), fun _ _ _ => "MEDIUM"⟩,
   ⟨fun _ tod _ => decide (tod = "evening"), fun _ _ _ => "LOW"⟩,
   ⟨fun _ _ _ => true,
    fun _ _ u =>
      if u = "high" then "HIGH" else if u = "medium" then "MEDIUM" else "LOW"⟩]

/-- Evaluate an ordered decision list top to bottom: the first rule whose
condition holds wins and no further rule is evaluated. -/
def firstMatch : List DecisionRule → String → String → String → Option String
  | [], _, _, _ => none
  | r :: rest, t, tod, u =>
      if r.applies t tod u then some (r.outcome t tod u) else firstMatch rest t tod u

/-- Claim C6: the rule-based classifier is exactly the top-to-bottom,
first-match evaluation of the six declared rules; in particular
(coding, morning, low) hits rule 3 and returns HIGH although its urgency
is low. -/
theorem C6_rule_order_first_match :
    (∀ t tod u, firstMatch specRuleList t tod u =
        some (calculate_rule_based_priority t tod u)) ∧
    calculate_rule_based_priority "coding" "morning" "low" = "HIGH" := by
  constructor
  · intro t tod u
    simp only [specRuleList, firstMatch, calculate_rule_based_priority,
      decide_eq_true_eq]
    split_ifs <;> simp_all
  · decide

/-- The JSON value written or read by `json.dump` / `json.load` for this
program: strings, integers, arrays, and objects with ordered keys.  The
textual encoding layer is abstracted away: for this value subset Python
serialisation and re-parsing are value-faithful, so persistence is
modelled at the JSON value level. -/
inductive Json where
  | str : String → Json
  | int : Int → Json
  | arr : List Json → Json
  | obj : List (String × Json) → Json

/-- Serialise one task dict: field names and order exactly as built in
the source. -/
def TaskRecord.toJson (t : TaskRecord) : Json :=
  Json.obj
    [("task_id", Json.int t.task_id),
     ("task_type", Json.str t.task_type),
     ("time_of_day", Json.str t.time_of_day),
     ("urgency", Json.str t.urgency),
     ("priority", Json.str t.priority),
     ("completion_order", Json.int t.completion_order),
     ("created_date", Json.str t.created_date)]

/-- Dict field access on a parsed JSON object (first entry with the given
key). -/
def Json.getField : Json → String → Option Json
  | Json.obj l, k => (l.find? (fun e => e.1 = k)).map Prod.snd
  | _, _ => none

/-- Read an integer field. -/
def Json.asInt : Option Json → Option Int
  | some (Json.int i) => some i
  | _ => none

/-- Read a string field. -/
def Json.asStr : Option Json → Option String
  | some (Json.str v) => some v
  | _ => none

/-- Parse one task dict back into a record. -/
def TaskRecord.fromJson (j : Json) : Option TaskRecord :=
  match Json.asInt (j.getField "task_id"), Json.asStr (j.getField "task_type"),
      Json.asStr (j.getField "time_of_day"), Json.asStr (j.getField "urgency"),
      Json.asStr (j.getField "priority"), Json.asInt (j.getField "completion_order"),
      Json.asStr (j.getField "created_date") with
  | some a, some b, some c, some d, some e, some f, some g =>
      some ⟨a, b, c, d, e, f, g⟩
  | _, _, _, _, _, _, _ => none

/-- `save_data`: `json.dump(self.task_history, f)` — the JSON value
written to the file. -/
def save_data (h : List TaskRecord) : Json :=
  Json.arr (h.map TaskRecord.toJson)

/-- `load_data`: `self.task_history = json.load(f)` — the history
recovered from the file content, `none` when the content is not a list
of well-formed task dicts. -/
def load_data (j : Json) : Option (List TaskRecord) :=
  match j with
  | Json.arr l => l.mapM TaskRecord.fromJson
  | _ => none

theorem fromJson_toJson (t : TaskRecord) :
    TaskRecord.fromJson (TaskRecord.toJson t) = some t := by
  obtain ⟨a, b, c, d, e, f, g⟩ := t
  rfl

/-- Claim C7: saving the history and loading it back reproduces the
identical ordered record sequence. -/
theorem C7_save_load_roundtrip (h : List TaskRecord) :
    load_data (save_data h) = some h := by
  induction h with
  | nil => rfl
  | cons t rest ih =>
      simp only [save_data, load_data, List.map_cons, List.mapM_cons,
        fromJson_toJson] at ih ⊢
      cases hm : List.mapM TaskRecord.fromJson (rest.map TaskRecord.toJson) with
      | none => rw [hm] at ih; simp at ih
      | some l =>
          rw [hm] at ih
          simp at ih
          simp [hm, ih]

/-- Engine state: the two mutable attributes of `SimpleTaskPriorityAI`
that the predictor could touch. -/
structure EngineState where
  learned_patterns : Patterns
  task_history : List TaskRecord

/-- The `_get_reasoning` method as invoked on an engine instance: the
body reads nothing from `self` beyond the three arguments. -/
def get_reasoningM (_s : EngineState) (task_type time_of_day urgency : String) : String :=
  get_reasoning task_type time_of_day urgency

/-- Specification-side rendering of the reasoning checklist: condition
and clause pairs, in their fixed declared order. -/
def reasoningChecklist : List ((String → String → String → Bool) × String) :=
  [(fun _ _ u => decide (u = "high"), "High urgency task"),
   (fun _ tod _ => decide (tod = "morning"),
    "Morning time slot (typically high productivity)"),
   (fun t _ _ => decide (t = "coding" ∨ t = "research"), "Creative/technical task"),
   (fun t _ _ => decide (t = "email"), "Communication task")]

/-- Specification-side reasoning generator: join every applicable clause
of the checklist, in order, with the fixed joiner; fall back to the fixed
generic phrase when no clause applies. -/
def checklistReasoning (t tod u : String) : String :=
  let clauses := (reasoningChecklist.filter (fun e => e.1 t tod u)).map Prod.snd
  String.intercalate " + "
    (if clauses = [] then ["Based on learned patterns"] else clauses)

/-- Claim C8: the reasoning output is the fixed-joiner concatenation of
every applicable checklist clause in the fixed order (with the single
fixed fallback phrase when none applies), and it depends only on the
three raw attributes — never on the engine state holding the pattern
store, nor on which prediction path fired. -/
theorem C8_reasoning_checklist :
    (∀ t tod u, get_reasoning t tod u = checklistReasoning t tod u) ∧
    (∀ (s1 s2 : EngineState) (t tod u : String),
        get_reasoningM s1 t tod u = get_reasoningM s2 t tod u) := by
  constructor
  · intro t tod u
    simp only [get_reasoning, checklistReasoning, reasoningChecklist,
      List.filter, decide_eq_true_eq]
    by_cases h1 : u = "high" <;> by_cases h2 : tod = "morning" <;>
      by_cases h3 : t = "coding" ∨ t = "research" <;> by_cases h4 : t = "email" <;>
      simp [h1, h2, h3, h4]
  · intro s1 s2 t tod u
    rfl

/-- Python `d[k]` on the outer `defaultdict`: the present entry when `k`
is a key, otherwise a fresh empty inner dict appended to the store
(defaultdict mutation on missing-key access). -/
def Patterns.accessD (ps : Patterns) (k : String) : Counts × Patterns :=
  match Patterns.find ps k with
  | some c => (c, ps)
  | none => ([], ps ++ [(k, [])])

/-- `predict_priority` as executed on the engine instance, with the
defaultdict access made explicit so state changes would be observable:
returns the prediction together with the post-call state.  The access is
guarded by `key in self.learned_patterns`, so the defaultdict's
insert-on-miss can never fire. -/
def predict_priorityS (s : EngineState) (task_type time_of_day urgency : String) :
    Prediction × EngineState :=
  if (Patterns.find s.learned_patterns
      (patternKey task_type time_of_day urgency)).isSome then
    let a := Patterns.accessD s.learned_patterns
      (patternKey task_type time_of_day urgency)
    let s1 : EngineState := ⟨a.2, s.task_history⟩
    if 0 < Counts.total a.1 then
      match argmaxFirst a.1 with
      | some b =>
          ({ priority := b.1,
             confidence := ((Counts.get a.1 b.1).getD 0 : ℚ) /
               (Counts.total a.1 : ℚ) }, s1)
      | none =>
          ({ priority := calculate_rule_based_priority task_type time_of_day urgency,
             confidence := 3 / 5 }, s1)
    else
      ({ priority := calculate_rule_based_priority task_type time_of_day urgency,
         confidence := 3 / 5 }, s1)
  else
    ({ priority := calculate_rule_based_priority task_type time_of_day urgency,
       confidence := 3 / 5 }, s)

/-- Claim C9: `predict_priority` never mutates the engine state — the
pattern store and the task history are unchanged by the call, including
when the looked-up key is absent. -/
theorem C9_predict_no_mutation (s : EngineState) (t tod u : String) :
    (predict_priorityS s t tod u).2 = s := by
  cases hfind : Patterns.find s.learned_patterns (patternKey t tod u) with
  | none => simp [predict_priorityS, hfind]
  | some c =>
      simp only [predict_priorityS, hfind, Patterns.accessD, Option.isSome_some,
        if_true]
      by_cases hpos : 0 < Counts.total c
      · cases hb : argmaxFirst c <;> simp [hpos, hb]
      · simp [hpos]

theorem rule_based_mem_priority_levels (t tod u : String) :
    calculate_rule_based_priority t tod u ∈ priority_levels := by
  unfold calculate_rule_based_priority
  split_ifs <;> simp [priority_levels]

/-- Claim C10: the rule-based classifier is total over arbitrary strings,
always yielding one of HIGH, MEDIUM, LOW; any urgency outside
{high, medium} that reaches the final branch maps to LOW; and
`predict_priority` on an out-of-domain input against an empty store
silently returns one of the three priorities instead of failing. -/
theorem C10_classifier_total :
    (∀ t tod u, calculate_rule_based_priority t tod u ∈ priority_levels) ∧
    (∀ t tod u,
        ¬ (u = "high" ∧ tod = "morning") →
        ¬ (t = "email" ∧ tod = "afternoon") →
        ¬ ((t = "coding" ∨ t = "research") ∧ tod = "morning") →
        ¬ (t = "meeting" ∧ tod = "afternoon") →
        tod ≠ "evening" → u ≠ "high" → u ≠ "medium" →
        calculate_rule_based_priority t tod u = "LOW") ∧
    (∀ t tod u, (predict_priority [] t tod u).priority ∈ priority_levels) := by
  refine ⟨rule_based_mem_priority_levels, ?_, ?_⟩
  · intro t tod u h1 h2 h3 h4 h5 h6 h7
    unfold calculate_rule_based_priority
    rw [if_neg h1, if_neg h2, if_neg h3, if_neg h4, if_neg h5, if_neg h6,
      if_neg h7]
  · intro t tod u
    have hred : predict_priority [] t tod u =
        { priority := calculate_rule_based_priority t tod u,
          confidence := 3 / 5 } := rfl
    rw [hred]
    exact rule_based_mem_priority_levels t tod u

theorem C10_classifier_total_witness :
    calculate_rule_based_priority "personal" "afternoon" "urgent" = "LOW" :=
  C10_classifier_total.2.1 "personal" "afternoon" "urgent"
    (by decide) (by decide) (by decide) (by decide) (by decide) (by decide)
    (by decide)

end TaskAI





